import Mathlib

/-!
Verification development for the jigsaw-puzzle-solver repository.

Shallow embedding of the Piece-Compatibility and Segment-Consensus Engine:
the Border enumeration, the best-buddy derivation from a compatibility
tensor (jigsolver/pomeranz_solver/segmenter.py), the recursive segment
traversal and the trial loop of the segmenter, the Piece and Board data
model (jigsolver/puzzle.py), and the post-selection pruning
(jigsolver/segmenter.py).

Conventions of the embedding:

* numpy float arrays are modelled as total functions from Nat indices to
  rationals; only indices below the declared shape correspond to real
  array entries.
* in-place array mutation (np.fill_diagonal, board cell assignment) is
  modelled by returning the updated function, built by the same fold of
  single-entry writes that the source loop performs.
* the recursive traversal find_segment is given an explicit fuel
  parameter; every invariant below is proved for all fuel values, and on
  concrete inputs a large enough fuel reproduces the Python recursion
  exactly.
* the process-wide numpy random generator is modelled as an injectable
  function from (call index, exclusive upper bound) to the drawn value,
  consumed sequentially, matching the repeated np.random.randint calls.
-/

/-- Enumeration Border of jigsolver/puzzle.py: TOP, RIGHT, BOTTOM, LEFT
with values 0, 1, 2, 3.  The slice component (edge extraction) is not
needed by any claim and is omitted. -/
inductive Border where
  | TOP
  | RIGHT
  | BOTTOM
  | LEFT
deriving DecidableEq, Repr

/-- Integer value of a border, as in the Python Enum. -/
def Border.value : Border → Nat
  | .TOP => 0
  | .RIGHT => 1
  | .BOTTOM => 2
  | .LEFT => 3

/-- Border.opposite of jigsolver/puzzle.py: the Border whose value is
(value + 2) % 4. -/
def Border.opposite (b : Border) : Border :=
  match (b.value + 2) % 4 with
  | 0 => .TOP
  | 1 => .RIGHT
  | 2 => .BOTTOM
  | _ => .LEFT

/-- Iteration order of `for b in Border` in Python: declaration order. -/
def Border.all : List Border := [.TOP, .RIGHT, .BOTTOM, .LEFT]

/-- np.argmax over the first m entries of f: index of the first
occurrence of the maximum, scanning left to right (numpy tie rule). -/
def npArgmax (f : Nat → ℚ) : Nat → Nat
  | 0 => 0
  | m + 1 =>
    let b := npArgmax f m
    if f b < f m then m else b

/-- Single write M[i,i,d] := 0 of the np.fill_diagonal loop. -/
def fillDiagWrite (i d : Nat) (M : Nat → Nat → Nat → ℚ) : Nat → Nat → Nat → ℚ :=
  fun a b c => if a = i ∧ b = i ∧ c = d then 0 else M a b c

/-- np.fill_diagonal(CM[:,:,d], 0) on an n × n × _ tensor: zeroes the
entries (i, i, d) for i < n, one write per row as numpy does. -/
def fill_diagonal_zero (n d : Nat) (M : Nat → Nat → Nat → ℚ) : Nat → Nat → Nat → ℚ :=
  (List.range n).foldl (fun A i => fillDiagWrite i d A) M

/-- The `for k in range(CM.shape[2])` loop of BestBuddies_matrix: zero
the diagonal of every one of the 4 direction slices. -/
def zero_diag (n : Nat) (CM : Nat → Nat → Nat → ℚ) : Nat → Nat → Nat → ℚ :=
  (List.range 4).foldl (fun A k => fill_diagonal_zero n k A) CM

/-- The set of entries written to 1 by the double loop of
BestBuddies_matrix: for each piece i < n and each border b, let
best_neighbour be the argmax of CM[i,:,b.value]; record
(i, best_neighbour, b.value) when the argmax of
CM[best_neighbour,:,b.opposite.value] is i. -/
def BestBuddies_writes (n : Nat) (CM : Nat → Nat → Nat → ℚ) : List (Nat × Nat × Nat) :=
  (List.range n).foldr
    (fun i acc =>
      (Border.all.filterMap (fun b =>
        let bn := npArgmax (fun k => CM i k b.value) n
        if npArgmax (fun k => CM bn k b.opposite.value) n = i then
          some (i, bn, b.value)
        else none)) ++ acc)
    []

/-- BestBuddies_matrix of jigsolver/pomeranz_solver/segmenter.py.
Returns the pair (CM after the call, BB): when diag is true the function
first zeroes the diagonal of CM in place (modelled by returning the
updated tensor as the first component); BB holds 1 exactly at the
entries the loop writes, every other entry keeping its np.zeros initial
value. -/
def BestBuddies_matrix (n : Nat) (CM : Nat → Nat → Nat → ℚ) (diag : Bool) :
    (Nat → Nat → Nat → ℚ) × (Nat → Nat → Nat → Bool) :=
  let CM2 := if diag then zero_diag n CM else CM
  (CM2, fun i j d => decide ((i, j, d) ∈ BestBuddies_writes n CM2))

/-- Property: j is the lowest index below n attaining the maximum of f
over indices below n (the characterization of np.argmax). -/
def isLowestArgmax (f : Nat → ℚ) (n j : Nat) : Prop :=
  j < n ∧ (∀ k < n, f k ≤ f j) ∧ ∀ k < j, f k < f j

instance (f : Nat → ℚ) (n j : Nat) : Decidable (isLowestArgmax f n j) := by
  unfold isLowestArgmax; infer_instance

/-- Piece of jigsolver/puzzle.py: stable id, square 3-channel picture
(flattened here to the list of its rational color samples, in row-major
scan order), the mutable _is_placed flag, and the position attribute set
by Puzzle.place.  The assertions of the constructor (squareness, channel
count) concern the 2-D layout and do not affect any claim. -/
structure Piece where
  id : Nat
  picture : List ℚ
  is_placed : Bool
  position : Nat × Nat
deriving DecidableEq, Repr

/-- Absolute value on the rationals, written out so that concrete
instances evaluate by kernel reduction. -/
def ratAbs (x : ℚ) : ℚ := if x < 0 then -x else x

/-- np.allclose on two flattened pictures with the numpy defaults
rtol = 1e-05 and atol = 1e-08: elementwise |a - b| <= atol + rtol * |b|.
np.allclose broadcasts; pieces of one puzzle share one shape, and the
embedding returns false on length mismatch. -/
def np_allclose (a b : List ℚ) : Bool :=
  decide (a.length = b.length) &&
    (a.zip b).all (fun xy =>
      decide (ratAbs (xy.1 - xy.2) ≤ 1 / 100000000 + (1 / 100000) * ratAbs xy.2))

/-- Piece.__eq__ of jigsolver/puzzle.py: np.allclose of the two
pictures; the ids, flags and positions play no role. -/
def Piece.eq (p q : Piece) : Bool := np_allclose p.picture q.picture

/-- A board cell: either an empty Slot carrying a positional id, or a
placed Piece (the runtime isinstance discrimination of the source). -/
inductive Cell where
  | slot (id : Nat)
  | piece (p : Piece)
deriving DecidableEq, Repr

/-- The Python membership test `neighbor in segment` on a list of
pieces: CPython compares item == needle for each item, calling
Piece.__eq__ on the item (the identity fast path is subsumed, since
np.allclose is reflexive). -/
def segContains (segment : List Piece) (q : Piece) : Bool :=
  segment.any (fun m => Piece.eq m q)

/-- The Python membership test `puzzle.board[i,j] in segment` where the
cell may be a Slot: a Slot is equal to no Piece (Piece.__eq__ returns
False on a non-Piece and Slot defines no __eq__). -/
def cellInSegment (c : Cell) (segment : List Piece) : Bool :=
  match c with
  | Cell.slot _ => false
  | Cell.piece p => segContains segment p

/-- Board of jigsolver/puzzle.py: an n_rows × n_cols grid of cells,
modelled as a total function on Nat coordinates; only coordinates below
the shape correspond to real cells. -/
structure Board where
  n_rows : Nat
  n_cols : Nat
  cell : Nat → Nat → Cell

/-- Board.__init__: every cell (i, j) starts as Slot(i * n_cols + j). -/
def Board.init (n_rows n_cols : Nat) : Board :=
  ⟨n_rows, n_cols, fun i j => Cell.slot (i * n_cols + j)⟩

/-- Board.neighbors(i, j): the generator yields, in this order, the
pairs (Border.TOP.value, cell above) when i > 0,
(Border.RIGHT.value, cell right) when j < n_cols - 1,
(Border.BOTTOM.value, cell below) when i < n_rows - 1 and
(Border.LEFT.value, cell left) when j > 0.  The embedding yields the
border value together with the coordinates of the neighbouring cell. -/
def Board.neighbors (bd : Board) (i j : Nat) : List (Nat × Nat × Nat) :=
  (if 0 < i then [(0, i - 1, j)] else []) ++
  (if j < bd.n_cols - 1 then [(1, i, j + 1)] else []) ++
  (if i < bd.n_rows - 1 then [(2, i + 1, j)] else []) ++
  (if 0 < j then [(3, i, j - 1)] else [])

/-- Inner loop of find_segment (jigsolver/pomeranz_solver/segmenter.py):
iterate over the neighbour list of the current position; when the
neighbouring cell holds a piece q that is not yet in the segment and
BB[current.id, q.id, border] is set, append q and recurse from
q.position through the supplied continuation f (find_segment at the
next fuel level). -/
def fsLoop (bd : Board) (BB : Nat → Nat → Nat → Bool)
    (f : List Piece → Nat × Nat → List Piece) (cur : Piece) :
    List (Nat × Nat × Nat) → List Piece → List Piece
  | [], seg => seg
  | (b, ni, nj) :: rest, seg =>
    fsLoop bd BB f cur rest
      (match bd.cell ni nj with
       | Cell.slot _ => seg
       | Cell.piece q =>
         if !segContains seg q && BB cur.id q.id b then
           f (seg ++ [q]) q.position
         else seg)

/-- find_segment of jigsolver/pomeranz_solver/segmenter.py (the copy in
jigsolver/segmenter.py is line for line identical): if the cell at pos
is a Slot return the segment unchanged, else loop over the neighbours
of pos, appending each best-buddy neighbour not yet in the segment and
recursing from its position.  The Python recursion is reproduced by any
fuel larger than the number of appends it performs. -/
def find_segment (bd : Board) (BB : Nat → Nat → Nat → Bool) :
    Nat → List Piece → Nat × Nat → List Piece
  | 0, seg, _ => seg
  | fuel + 1, seg, pos =>
    match bd.cell pos.1 pos.2 with
    | Cell.slot _ => seg
    | Cell.piece cur => fsLoop bd BB (find_segment bd BB fuel) cur (bd.neighbors pos.1 pos.2) seg

/-- Trial count of segmenter in jigsolver/pomeranz_solver/segmenter.py:
a falsy n_iter (False, or 0) is replaced by max(5, int(rows*cols/5)). -/
def segmenter_trials (rows cols n_iter : Nat) : Nat :=
  if n_iter = 0 then max 5 (rows * cols / 5) else n_iter

/-- Trial count of segmenter in jigsolver/segmenter.py (the older copy):
a falsy n_iter is replaced by min(5, int(rows*cols/5)). -/
def segmenter_trials_legacy (rows cols n_iter : Nat) : Nat :=
  if n_iter = 0 then min 5 (rows * cols / 5) else n_iter

/-- The per-trial segments collected by segmenter
(jigsolver/pomeranz_solver/segmenter.py): trial t draws
init_col = np.random.randint(0, shape[0]) then
init_row = np.random.randint(0, shape[1]) from the injectable random
source (call index, exclusive bound) and runs find_segment from the
empty segment at (init_col, init_row). -/
def segmenter_segments (bd : Board) (BB : Nat → Nat → Nat → Bool)
    (randint : Nat → Nat → Nat) (n_iter fuel : Nat) : List (List Piece) :=
  (List.range (segmenter_trials bd.n_rows bd.n_cols n_iter)).map
    (fun t => find_segment bd BB fuel [] (randint (2 * t) bd.n_rows, randint (2 * t + 1) bd.n_cols))

/-- Python max(segments, key=len): none on an empty list (ValueError in
the source), else the first element of greatest length. -/
def pythonMax (l : List (List Piece)) : Option (List Piece) :=
  match l with
  | [] => none
  | s :: rest => some (rest.foldl (fun best x => if best.length < x.length then x else best) s)

/-- segmenter of jigsolver/pomeranz_solver/segmenter.py: run the trials
and return the biggest segment found. -/
def segmenter (bd : Board) (BB : Nat → Nat → Nat → Bool)
    (randint : Nat → Nat → Nat) (n_iter fuel : Nat) : Option (List Piece) :=
  pythonMax (segmenter_segments bd BB randint n_iter fuel)

/-- Row-major list of the coordinates visited by the double loop
`for i in range(rows): for j in range(cols)`. -/
def gridCoords (rows cols : Nat) : List (Nat × Nat) :=
  ((List.range rows).map (fun i => (List.range cols).map (fun j => (i, j)))).flatten

/-- One iteration of remove_all_but_segment at coordinate ij: when the
current cell is not in the segment, the piece there (if any) gets its
_is_placed flag cleared (recorded in the second component) and the cell
is overwritten with Slot(i * shape[0] + j); rows is shape[0]. -/
def rabsStep (rows : Nat) (segment : List Piece)
    (st : (Nat → Nat → Cell) × List Piece) (ij : Nat × Nat) :
    (Nat → Nat → Cell) × List Piece :=
  if cellInSegment (st.1 ij.1 ij.2) segment then st
  else
    ((fun a b => if a = ij.1 ∧ b = ij.2 then Cell.slot (ij.1 * rows + ij.2) else st.1 a b),
     match st.1 ij.1 ij.2 with
     | Cell.slot _ => st.2
     | Cell.piece p => st.2 ++ [p])

/-- remove_all_but_segment of jigsolver/segmenter.py: scan the board in
row-major order; every cell whose content is not in the segment is
reset to Slot(i * shape[0] + j) after clearing the _is_placed flag of
its occupant.  Returns the final grid together with the list of pieces
whose flag was cleared. -/
def remove_all_but_segment (rows cols : Nat) (cell : Nat → Nat → Cell)
    (segment : List Piece) : (Nat → Nat → Cell) × List Piece :=
  (gridCoords rows cols).foldl (rabsStep rows segment) (cell, [])

/-- Swap of two positions of a list, as performed on the numpy array by
one step of the Fisher-Yates shuffle. -/
def swapL (l : List Piece) (i j : Nat) : List Piece :=
  match l[i]?, l[j]? with
  | some x, some y => (l.set i y).set j x
  | _, _ => l

/-- np.random.shuffle: Fisher-Yates from the top; call t of the random
source draws j = randint(0, i + 1) for i = length - 1 - t and swaps the
entries at i and j. -/
def np_shuffle (randint : Nat → Nat → Nat) (l : List Piece) : List Piece :=
  (List.range (l.length - 1)).foldl
    (fun acc t =>
      let i := l.length - 1 - t
      swapL acc i (randint t (i + 1)))
    l

/-- Puzzle.shuffle of jigsolver/puzzle.py: reseed the global generator
(modelled by the injectable randint starting at call index 0), reset
the board to a fresh empty Board, shuffle the bag of pieces, then clear
every _is_placed flag and reassign ids 0, 1, ... in the shuffled order
(the new_ids bookkeeping dictionary is not needed by any claim). -/
def Puzzle.shuffle (rows cols : Nat) (randint : Nat → Nat → Nat)
    (bag : List Piece) : Board × List Piece :=
  (Board.init rows cols,
   (np_shuffle randint bag).enum.map
     (fun ip => { ip.2 with is_placed := false, id := ip.1 }))

/-- The pipeline of claim C8: shuffle the bag with the seeded random
source, derive BB from the compatibility tensor, then run the segment
search on the board state, the random source continuing at the call
index where the shuffle left it (the source models the process-wide
generator np.random seeded once). -/
def pipeline (rows cols : Nat) (bag : List Piece) (n : Nat)
    (CM : Nat → Nat → Nat → ℚ) (randint : Nat → Nat → Nat) (bd : Board)
    (n_iter fuel : Nat) :
    (Board × List Piece) × (Nat → Nat → Nat → Bool) × Option (List Piece) :=
  let sh := Puzzle.shuffle rows cols randint bag
  let BB := (BestBuddies_matrix n CM true).2
  (sh, BB, segmenter bd BB (fun t bound => randint (bag.length - 1 + t) bound) n_iter fuel)

/-- Concrete pieces for the counterexamples: three placed pieces on a
1 × 3 board, B at (0,0), A at (0,1), C at (0,2), with pairwise far
apart one-sample pictures. -/
def pB : Piece := ⟨0, [0], true, (0, 0)⟩

/-- Middle piece of the 1 × 3 counterexample board. -/
def pA : Piece := ⟨1, [1], true, (0, 1)⟩

/-- Right piece of the 1 × 3 counterexample board. -/
def pC : Piece := ⟨2, [2], true, (0, 2)⟩

/-- The 1 × 3 counterexample board holding pB, pA, pC. -/
def bdEx : Board :=
  ⟨1, 3, fun i j =>
    if i = 0 ∧ j = 0 then Cell.piece pB
    else if i = 0 ∧ j = 1 then Cell.piece pA
    else if i = 0 ∧ j = 2 then Cell.piece pC
    else Cell.slot 0⟩

/-- Best-buddy tensor of the counterexample: the middle piece pA (id 1)
has pB (id 0) as best buddy on its LEFT (value 3) and pC (id 2) on its
RIGHT (value 1); no other entry is set. -/
def bbEx : Nat → Nat → Nat → Bool := fun a b d =>
  (a = 1 && b = 0 && d = 3) || (a = 1 && b = 2 && d = 1)

/-- A 2 × 2 board with every cell an empty Slot (as produced by
Board.init before any placement). -/
def bdEmpty : Board := ⟨2, 2, fun _ _ => Cell.slot 0⟩

/-- All-false best-buddy tensor. -/
def bb0 : Nat → Nat → Nat → Bool := fun _ _ _ => false

/-- All-zero random source. -/
def rand0 : Nat → Nat → Nat := fun _ _ => 0

/-- All-zero 1 × 1 × 4 compatibility tensor (degenerate single piece
puzzle). -/
def cm0 : Nat → Nat → Nat → ℚ := fun _ _ _ => 0

/-- Constant-one tensor used to exhibit the in-place diagonal write. -/
def cmOne : Nat → Nat → Nat → ℚ := fun _ _ _ => 1

/-- A 1 × 1 grid whose only cell holds the piece pB. -/
def cellOneB : Nat → Nat → Cell := fun _ _ => Cell.piece pB

/-- A piece distinct from pB in id, flag and position but with the same
picture. -/
def pD : Piece := ⟨7, [0], false, (5, 5)⟩

/-- A piece lies somewhere on the board. -/
def onBoard (bd : Board) (q : Piece) : Prop :=
  ∃ i j, bd.cell i j = Cell.piece q

/-- Piece q of a segment was discovered through a best-buddy edge: some
piece p, placed at a cell of the board, has q on a board-adjacent cell
in direction b with BB[p.id, q.id, b] set, and p is either the piece at
the root position of the traversal or itself a member of the list L. -/
def discov (bd : Board) (BB : Nat → Nat → Nat → Bool) (root : Nat × Nat)
    (L : List Piece) (q : Piece) : Prop :=
  ∃ pi pj b ni nj p, bd.cell pi pj = Cell.piece p ∧
    (b, ni, nj) ∈ bd.neighbors pi pj ∧ bd.cell ni nj = Cell.piece q ∧
    BB p.id q.id b = true ∧ ((pi, pj) = root ∨ p ∈ L)

/-! Helper lemmas about npArgmax and the diagonal-zeroing loop. -/

theorem npArgmax_spec (f : Nat → ℚ) :
    ∀ m, 0 < m →
      npArgmax f m < m ∧ (∀ k < m, f k ≤ f (npArgmax f m)) ∧
        ∀ k < npArgmax f m, f k < f (npArgmax f m) := by
  intro m
  induction m with
  | zero => intro h; exact absurd h (Nat.lt_irrefl 0)
  | succ m ih =>
    intro _
    simp only [npArgmax]
    by_cases hc : f (npArgmax f m) < f m
    · simp only [hc, if_true]
      refine ⟨by omega, ?_, ?_⟩
      · intro k hk
        rcases (by omega : k < m ∨ k = m) with hk' | rfl
        · have hm : 0 < m := by omega
          exact le_of_lt (lt_of_le_of_lt ((ih hm).2.1 k hk') hc)
        · exact le_refl _
      · intro k hk
        have hm : 0 < m := by omega
        exact lt_of_le_of_lt ((ih hm).2.1 k hk) hc
    · simp only [hc, if_false]
      by_cases hm : 0 < m
      · obtain ⟨hlt, hmax, hstrict⟩ := ih hm
        refine ⟨by omega, ?_, hstrict⟩
        intro k hk
        rcases (by omega : k < m ∨ k = m) with hk' | rfl
        · exact hmax k hk'
        · exact le_of_not_lt hc
      · have hm0 : m = 0 := by omega
        subst hm0
        simp only [npArgmax]
        refine ⟨by omega, ?_, ?_⟩
        · intro k hk
          have hk0 : k = 0 := by omega
          subst hk0
          exact le_refl _
        · intro k hk
          exact absurd hk (Nat.not_lt_zero k)

theorem npArgmax_eq_iff (f : Nat → ℚ) (m j : Nat) (hm : 0 < m) :
    npArgmax f m = j ↔ isLowestArgmax f m j := by
  obtain ⟨h1, h2, h3⟩ := npArgmax_spec f m hm
  constructor
  · rintro rfl
    exact ⟨h1, h2, h3⟩
  · rintro ⟨hj, hmax, hstrict⟩
    by_contra hne
    rcases Nat.lt_or_ge (npArgmax f m) j with h | h
    · exact absurd (hstrict _ h) (not_lt.2 (h2 j hj))
    · have hj2 : j < npArgmax f m := by omega
      exact absurd (h3 j hj2) (not_lt.2 (hmax _ h1))

theorem fill_diagonal_zero_apply (n d : Nat) (M : Nat → Nat → Nat → ℚ) (a b c : Nat) :
    fill_diagonal_zero n d M a b c = if a = b ∧ a < n ∧ c = d then 0 else M a b c := by
  unfold fill_diagonal_zero
  induction n with
  | zero =>
    simp only [List.range_zero, List.foldl_nil]
    split_ifs with h
    · omega
    · rfl
  | succ n ih =>
    rw [List.range_succ, List.foldl_append, List.foldl_cons, List.foldl_nil]
    show (if a = n ∧ b = n ∧ c = d then 0
        else (List.range n).foldl (fun A i => fillDiagWrite i d A) M a b c) =
      if a = b ∧ a < n + 1 ∧ c = d then 0 else M a b c
    rw [ih]
    split_ifs <;> first | rfl | omega

theorem zero_diag_apply (n : Nat) (CM : Nat → Nat → Nat → ℚ) (a b c : Nat) :
    zero_diag n CM a b c = if a = b ∧ a < n ∧ c < 4 then 0 else CM a b c := by
  unfold zero_diag
  rw [show List.range 4 = [0, 1, 2, 3] from rfl]
  simp only [List.foldl_cons, List.foldl_nil]
  rw [fill_diagonal_zero_apply, fill_diagonal_zero_apply, fill_diagonal_zero_apply,
    fill_diagonal_zero_apply]
  split_ifs <;> first | rfl | omega

theorem zero_diag_eq_self (n : Nat) (CM : Nat → Nat → Nat → ℚ)
    (h0 : ∀ a d, CM a a d = 0) : zero_diag n CM = CM := by
  funext a b c
  rw [zero_diag_apply]
  split_ifs with h
  · rcases h with ⟨rfl, -, -⟩
    exact (h0 a c).symm
  · rfl

theorem border_value_inj : ∀ b b' : Border, b.value = b'.value → b = b' := by
  intro b b'
  cases b <;> cases b' <;> decide

theorem mem_foldr_append {α β : Type} (g : α → List β) (l : List α) (e : β) :
    e ∈ l.foldr (fun i acc => g i ++ acc) [] ↔ ∃ i ∈ l, e ∈ g i := by
  induction l with
  | nil => simp
  | cons x xs ih => simp [List.mem_append, ih]

theorem mem_BestBuddies_writes (n : Nat) (CM : Nat → Nat → Nat → ℚ) (e : Nat × Nat × Nat) :
    e ∈ BestBuddies_writes n CM ↔
      ∃ i < n, ∃ b : Border,
        npArgmax (fun k => CM (npArgmax (fun k => CM i k b.value) n) k b.opposite.value) n = i ∧
        e = (i, npArgmax (fun k => CM i k b.value) n, b.value) := by
  unfold BestBuddies_writes
  rw [mem_foldr_append]
  constructor
  · rintro ⟨i, hi, hmem⟩
    rw [List.mem_filterMap] at hmem
    obtain ⟨b, -, hb⟩ := hmem
    simp only at hb
    by_cases hrev :
        npArgmax (fun k => CM (npArgmax (fun k => CM i k b.value) n) k b.opposite.value) n = i
    · rw [if_pos hrev] at hb
      exact ⟨i, List.mem_range.1 hi, b, hrev, (Option.some_inj.1 hb).symm⟩
    · rw [if_neg hrev] at hb
      exact absurd hb (by simp)
  · rintro ⟨i, hi, b, hrev, rfl⟩
    refine ⟨i, List.mem_range.2 hi, ?_⟩
    rw [List.mem_filterMap]
    refine ⟨b, by cases b <;> simp [Border.all], ?_⟩
    simp only [hrev, if_true]

/-! Claim C1: mutuality and tie-breaking of the best-buddy computation. -/

/-- C1: for a compatibility tensor CM (satisfying the documented
invariant CM[i,i,*] = 0), the best-buddy computation sets BB[i,j,d]
exactly when j is the lowest index attaining the maximum of CM[i,:,d]
and i is the lowest index attaining the maximum of
CM[j,:,opposite(d)]. -/
theorem bestBuddies_mutual (n : Nat) (CM : Nat → Nat → Nat → ℚ) (i j : Nat) (b : Border)
    (h0 : ∀ a d, CM a a d = 0) :
    (BestBuddies_matrix n CM true).2 i j b.value = true ↔
      isLowestArgmax (fun k => CM i k b.value) n j ∧
        isLowestArgmax (fun k => CM j k b.opposite.value) n i := by
  have hz : zero_diag n CM = CM := zero_diag_eq_self n CM h0
  show decide ((i, j, b.value) ∈ BestBuddies_writes n (zero_diag n CM)) = true ↔ _
  rw [hz, decide_eq_true_eq, mem_BestBuddies_writes]
  constructor
  · rintro ⟨i', hi', b', hrev, he⟩
    obtain ⟨rfl, hj, hbv⟩ : i = i' ∧ j = npArgmax (fun k => CM i' k b'.value) n ∧
        b.value = b'.value := by
      refine ⟨congrArg Prod.fst he, ?_, ?_⟩
      · exact congrArg (fun x => x.2.1) he
      · exact congrArg (fun x => x.2.2) he
    obtain rfl : b = b' := border_value_inj _ _ hbv
    have hn : 0 < n := by omega
    subst hj
    exact ⟨(npArgmax_eq_iff _ n _ hn).1 rfl, (npArgmax_eq_iff _ n _ hn).1 hrev⟩
  · rintro ⟨hj, hi⟩
    have hn : 0 < n := Nat.lt_of_le_of_lt (Nat.zero_le j) hj.1
    have h1 : npArgmax (fun k => CM i k b.value) n = j := (npArgmax_eq_iff _ n _ hn).2 hj
    have h2 : npArgmax (fun k => CM j k b.opposite.value) n = i :=
      (npArgmax_eq_iff _ n _ hn).2 hi
    exact ⟨i, hi.1, b, by rw [h1, h2], by rw [h1]⟩

/-- Witness for C1: on the degenerate single-piece puzzle (all-zero
1 × 1 × 4 tensor), BB[0,0,TOP] is set and the characterization applies. -/
theorem bestBuddies_mutual_witness :
    (BestBuddies_matrix 1 cm0 true).2 0 0 Border.TOP.value = true :=
  (bestBuddies_mutual 1 cm0 0 0 Border.TOP (fun _ _ => rfl)).mpr (by decide)

/-! Claim C4: the best-buddy computation and its effect on CM. -/

/-- C4 (amended): with diag = False the input tensor is returned
untouched; with diag = True (the default) the call zeroes every
diagonal entry CM[i,i,d] for i < n and d < 4 in place and leaves every
other entry unchanged; the result depends on nothing but CM and the
flag. -/
theorem bestBuddies_frame (n : Nat) (CM : Nat → Nat → Nat → ℚ) (i j d : Nat) :
    (BestBuddies_matrix n CM false).1 i j d = CM i j d ∧
      (BestBuddies_matrix n CM true).1 i j d =
        if i = j ∧ i < n ∧ d < 4 then 0 else CM i j d := by
  exact ⟨rfl, zero_diag_apply n CM i j d⟩

/-- Counterexample to C4 as stated: with the default diag flag the
tensor passed in is mutated — on a 1 × 1 × 4 tensor holding 1
everywhere, the diagonal entry (0,0,0) reads 0 after the call. -/
theorem bestBuddies_mutates_cm :
    (BestBuddies_matrix 1 cmOne true).1 0 0 0 ≠ cmOne 0 0 0 := by decide

/-! Claim C2: number of seeded traversal trials. -/

/-- C2: the pomeranz_solver segmenter defaults a falsy n_iter to
max(5, floor(rows*cols/5)) and runs exactly that many seeded trials;
the older copy in jigsolver/segmenter.py instead computes
min(5, floor(rows*cols/5)) — on a 4 × 4 board it runs 3 trials where
the claim demands max(5, 3) = 5. -/
theorem segmenter_trial_count :
    (∀ rows cols : Nat, segmenter_trials rows cols 0 = max 5 (rows * cols / 5)) ∧
    (∀ (bd : Board) (BB : Nat → Nat → Nat → Bool) (randint : Nat → Nat → Nat)
        (n_iter fuel : Nat),
      (segmenter_segments bd BB randint n_iter fuel).length =
        segmenter_trials bd.n_rows bd.n_cols n_iter) ∧
    segmenter_trials_legacy 4 4 0 = 3 ∧ segmenter_trials 4 4 0 = 5 := by
  refine ⟨fun rows cols => rfl, fun bd BB randint n_iter fuel => ?_, rfl, rfl⟩
  simp [segmenter_segments]

/-! Helper lemmas about the segment traversal.  The step lemmas unfold
one iteration of the neighbour loop and one level of the recursion. -/

theorem fsLoop_cons_slot {bd : Board} {BB : Nat → Nat → Nat → Bool}
    {f : List Piece → Nat × Nat → List Piece} {cur : Piece} {b ni nj : Nat}
    {rest : List (Nat × Nat × Nat)} {seg : List Piece} {sid : Nat}
    (h : bd.cell ni nj = Cell.slot sid) :
    fsLoop bd BB f cur ((b, ni, nj) :: rest) seg = fsLoop bd BB f cur rest seg := by
  simp only [fsLoop, h]

theorem fsLoop_cons_piece {bd : Board} {BB : Nat → Nat → Nat → Bool}
    {f : List Piece → Nat × Nat → List Piece} {cur : Piece} {b ni nj : Nat}
    {rest : List (Nat × Nat × Nat)} {seg : List Piece} {qn : Piece}
    (h : bd.cell ni nj = Cell.piece qn) :
    fsLoop bd BB f cur ((b, ni, nj) :: rest) seg =
      fsLoop bd BB f cur rest
        (if !segContains seg qn && BB cur.id qn.id b then f (seg ++ [qn]) qn.position
         else seg) := by
  simp only [fsLoop, h]

theorem find_segment_succ_slot {bd : Board} {BB : Nat → Nat → Nat → Bool}
    {fuel : Nat} {seg : List Piece} {pos : Nat × Nat} {sid : Nat}
    (h : bd.cell pos.1 pos.2 = Cell.slot sid) :
    find_segment bd BB (fuel + 1) seg pos = seg := by
  simp only [find_segment, h]

theorem find_segment_succ_piece {bd : Board} {BB : Nat → Nat → Nat → Bool}
    {fuel : Nat} {seg : List Piece} {pos : Nat × Nat} {cur : Piece}
    (h : bd.cell pos.1 pos.2 = Cell.piece cur) :
    find_segment bd BB (fuel + 1) seg pos =
      fsLoop bd BB (find_segment bd BB fuel) cur (bd.neighbors pos.1 pos.2) seg := by
  simp only [find_segment, h]

theorem fsLoop_extend (bd : Board) (BB : Nat → Nat → Nat → Bool)
    (f : List Piece → Nat × Nat → List Piece) (cur : Piece)
    (hf : ∀ s p, ∃ t, f s p = s ++ t) :
    ∀ ns seg, ∃ t, fsLoop bd BB f cur ns seg = seg ++ t := by
  intro ns
  induction ns with
  | nil => intro seg; exact ⟨[], by simp [fsLoop]⟩
  | cons e rest ih =>
    intro seg
    obtain ⟨b, ni, nj⟩ := e
    cases hcell : bd.cell ni nj with
    | slot sid =>
      rw [fsLoop_cons_slot hcell]
      exact ih seg
    | piece q =>
      rw [fsLoop_cons_piece hcell]
      by_cases hcond : (!segContains seg q && BB cur.id q.id b) = true
      · rw [if_pos hcond]
        obtain ⟨t1, ht1⟩ := hf (seg ++ [q]) q.position
        obtain ⟨t2, ht2⟩ := ih (f (seg ++ [q]) q.position)
        refine ⟨[q] ++ t1 ++ t2, ?_⟩
        rw [ht2, ht1]
        simp
      · rw [if_neg hcond]
        exact ih seg

theorem find_segment_extend (bd : Board) (BB : Nat → Nat → Nat → Bool) :
    ∀ fuel seg pos, ∃ t, find_segment bd BB fuel seg pos = seg ++ t := by
  intro fuel
  induction fuel with
  | zero => intro seg pos; exact ⟨[], by simp [find_segment]⟩
  | succ fuel ih =>
    intro seg pos
    cases hcell : bd.cell pos.1 pos.2 with
    | slot sid => exact ⟨[], by rw [find_segment_succ_slot hcell, List.append_nil]⟩
    | piece cur =>
      rw [find_segment_succ_piece hcell]
      exact fsLoop_extend bd BB _ cur (fun s p => ih s p) _ seg

theorem fsLoop_mem_src (bd : Board) (BB : Nat → Nat → Nat → Bool)
    (f : List Piece → Nat × Nat → List Piece) (cur : Piece)
    (hf : ∀ s p q, q ∈ f s p → q ∈ s ∨ onBoard bd q) :
    ∀ ns seg q, q ∈ fsLoop bd BB f cur ns seg → q ∈ seg ∨ onBoard bd q := by
  intro ns
  induction ns with
  | nil => intro seg q hq; exact Or.inl hq
  | cons e rest ih =>
    intro seg q hq
    obtain ⟨b, ni, nj⟩ := e
    cases hcell : bd.cell ni nj with
    | slot sid =>
      rw [fsLoop_cons_slot hcell] at hq
      exact ih seg q hq
    | piece qn =>
      rw [fsLoop_cons_piece hcell] at hq
      by_cases hcond : (!segContains seg qn && BB cur.id qn.id b) = true
      · rw [if_pos hcond] at hq
        rcases ih _ q hq with hq2 | hob
        · rcases hf _ _ q hq2 with hq3 | hob
          · rcases List.mem_append.1 hq3 with h | h
            · exact Or.inl h
            · have hq_eq : q = qn := by simpa using h
              subst hq_eq
              exact Or.inr ⟨ni, nj, hcell⟩
          · exact Or.inr hob
        · exact Or.inr hob
      · rw [if_neg hcond] at hq
        exact ih seg q hq

theorem find_segment_mem_src (bd : Board) (BB : Nat → Nat → Nat → Bool) :
    ∀ fuel seg pos q, q ∈ find_segment bd BB fuel seg pos → q ∈ seg ∨ onBoard bd q := by
  intro fuel
  induction fuel with
  | zero => intro seg pos q hq; exact Or.inl hq
  | succ fuel ih =>
    intro seg pos q hq
    cases hcell : bd.cell pos.1 pos.2 with
    | slot sid =>
      rw [find_segment_succ_slot hcell] at hq
      exact Or.inl hq
    | piece cur =>
      rw [find_segment_succ_piece hcell] at hq
      exact fsLoop_mem_src bd BB _ cur (fun s p q hq => ih s p q hq) _ seg q hq

theorem segContains_eq_false_forall {seg : List Piece} {q : Piece}
    (h : segContains seg q = false) : ∀ m ∈ seg, Piece.eq m q = false := by
  intro m hm
  have := List.any_eq_false.1 h m hm
  simpa using this

theorem fsLoop_pairwise (bd : Board) (BB : Nat → Nat → Nat → Bool)
    (f : List Piece → Nat × Nat → List Piece) (cur : Piece)
    (hf : ∀ s p, List.Pairwise (fun a c => Piece.eq a c = false) s →
      List.Pairwise (fun a c => Piece.eq a c = false) (f s p)) :
    ∀ ns seg, List.Pairwise (fun a c => Piece.eq a c = false) seg →
      List.Pairwise (fun a c => Piece.eq a c = false) (fsLoop bd BB f cur ns seg) := by
  intro ns
  induction ns with
  | nil => intro seg hseg; exact hseg
  | cons e rest ih =>
    intro seg hseg
    obtain ⟨b, ni, nj⟩ := e
    cases hcell : bd.cell ni nj with
    | slot sid =>
      rw [fsLoop_cons_slot hcell]
      exact ih seg hseg
    | piece qn =>
      rw [fsLoop_cons_piece hcell]
      by_cases hcond : (!segContains seg qn && BB cur.id qn.id b) = true
      · rw [if_pos hcond]
        have hfresh : segContains seg qn = false := by
          have := (Bool.and_eq_true _ _).mp hcond
          exact (Bool.not_eq_true' _).mp this.1
        have happ : List.Pairwise (fun a c => Piece.eq a c = false) (seg ++ [qn]) := by
          rw [List.pairwise_append]
          refine ⟨hseg, List.pairwise_singleton _ _, ?_⟩
          intro a ha c hc
          have hc' : c = qn := by simpa using hc
          subst hc'
          exact segContains_eq_false_forall hfresh a ha
        exact ih _ (hf _ _ happ)
      · rw [if_neg hcond]
        exact ih seg hseg

theorem find_segment_pairwise (bd : Board) (BB : Nat → Nat → Nat → Bool) :
    ∀ fuel seg pos, List.Pairwise (fun a c => Piece.eq a c = false) seg →
      List.Pairwise (fun a c => Piece.eq a c = false) (find_segment bd BB fuel seg pos) := by
  intro fuel
  induction fuel with
  | zero => intro seg pos hseg; exact hseg
  | succ fuel ih =>
    intro seg pos hseg
    cases hcell : bd.cell pos.1 pos.2 with
    | slot sid =>
      rw [find_segment_succ_slot hcell]
      exact hseg
    | piece cur =>
      rw [find_segment_succ_piece hcell]
      exact fsLoop_pairwise bd BB _ cur (fun s p hs => ih s p hs) _ seg hseg

theorem discov_shift {bd : Board} {BB : Nat → Nat → Nat → Bool} {root : Nat × Nat}
    {L L' : List Piece} {q pr : Piece}
    (hroot : bd.cell root.1 root.2 = Cell.piece pr) (hpr : pr ∈ L')
    (hsub : ∀ x ∈ L, x ∈ L') (root' : Nat × Nat) :
    discov bd BB root L q → discov bd BB root' L' q := by
  rintro ⟨pi, pj, b, ni, nj, p, h1, h2, h3, h4, h5⟩
  refine ⟨pi, pj, b, ni, nj, p, h1, h2, h3, h4, Or.inr ?_⟩
  rcases h5 with heq | hmem
  · have hpi : pi = root.1 := congrArg Prod.fst heq
    have hpj : pj = root.2 := congrArg Prod.snd heq
    subst hpi
    subst hpj
    rw [h1] at hroot
    obtain rfl : p = pr := by injection hroot
    exact hpr
  · exact hsub p hmem

theorem fsLoop_discov (bd : Board) (BB : Nat → Nat → Nat → Bool)
    (f : List Piece → Nat × Nat → List Piece) (cur : Piece) (pos : Nat × Nat)
    (hcons : ∀ i j p, bd.cell i j = Cell.piece p → p.position = (i, j))
    (hf_src : ∀ s p q, q ∈ f s p → q ∈ s ∨ discov bd BB p (f s p) q)
    (hf_ext : ∀ s p, ∃ t, f s p = s ++ t)
    (hcur : bd.cell pos.1 pos.2 = Cell.piece cur) :
    ∀ ns, (∀ e ∈ ns, e ∈ bd.neighbors pos.1 pos.2) →
      ∀ seg q, q ∈ fsLoop bd BB f cur ns seg →
        q ∈ seg ∨ discov bd BB pos (fsLoop bd BB f cur ns seg) q := by
  intro ns
  induction ns with
  | nil => intro _ seg q hq; exact Or.inl hq
  | cons e rest ih =>
    intro hns seg q hq
    obtain ⟨b, ni, nj⟩ := e
    cases hcell : bd.cell ni nj with
    | slot sid =>
      rw [fsLoop_cons_slot hcell] at hq ⊢
      exact ih (fun e he => hns e (List.mem_cons_of_mem _ he)) seg q hq
    | piece qn =>
      rw [fsLoop_cons_piece hcell] at hq ⊢
      by_cases hcond : (!segContains seg qn && BB cur.id qn.id b) = true
      · rw [if_pos hcond] at hq ⊢
        obtain ⟨t2, ht2⟩ :=
          fsLoop_extend bd BB f cur hf_ext rest (f (seg ++ [qn]) qn.position)
        obtain ⟨t1, ht1⟩ := hf_ext (seg ++ [qn]) qn.position
        have hqn_pos : qn.position = (ni, nj) := hcons ni nj qn hcell
        have hqnR : qn ∈ fsLoop bd BB f cur rest (f (seg ++ [qn]) qn.position) := by
          rw [ht2, ht1]
          simp
        have hLsubR : ∀ x ∈ f (seg ++ [qn]) qn.position,
            x ∈ fsLoop bd BB f cur rest (f (seg ++ [qn]) qn.position) := by
          intro x hx
          rw [ht2]
          exact List.mem_append_left _ hx
        rcases ih (fun e he => hns e (List.mem_cons_of_mem _ he)) _ q hq with hqL | hdisc
        · rcases hf_src (seg ++ [qn]) qn.position q hqL with hqs | hdisc2
          · rcases List.mem_append.1 hqs with h | h
            · exact Or.inl h
            · have hq_eq : q = qn := by simpa using h
              subst hq_eq
              refine Or.inr ⟨pos.1, pos.2, b, ni, nj, cur, hcur,
                hns _ (List.mem_cons_self _ _), hcell, ?_, Or.inl rfl⟩
              exact ((Bool.and_eq_true _ _).mp hcond).2
          · refine Or.inr (discov_shift ?_ hqnR hLsubR pos hdisc2)
            rw [hqn_pos]
            exact hcell
        · exact Or.inr hdisc
      · rw [if_neg hcond] at hq ⊢
        exact ih (fun e he => hns e (List.mem_cons_of_mem _ he)) seg q hq

theorem find_segment_discov (bd : Board) (BB : Nat → Nat → Nat → Bool)
    (hcons : ∀ i j p, bd.cell i j = Cell.piece p → p.position = (i, j)) :
    ∀ fuel seg pos q, q ∈ find_segment bd BB fuel seg pos →
      q ∈ seg ∨ discov bd BB pos (find_segment bd BB fuel seg pos) q := by
  intro fuel
  induction fuel with
  | zero => intro seg pos q hq; exact Or.inl hq
  | succ fuel ih =>
    intro seg pos q hq
    cases hcell : bd.cell pos.1 pos.2 with
    | slot sid =>
      rw [find_segment_succ_slot hcell] at hq ⊢
      exact Or.inl hq
    | piece cur =>
      rw [find_segment_succ_piece hcell] at hq ⊢
      exact fsLoop_discov bd BB _ cur pos hcons (fun s p q hq => ih s p q hq)
        (fun s p => find_segment_extend bd BB fuel s p) hcell _ (fun e he => he) seg q hq

/-! Claim C3: internal consistency of returned segments. -/

/-- C3 (amended): every member of a segment returned by the seeded
traversal was reached through a BB-true edge from a board-adjacent
piece, and that discovering piece is either itself a member of the
segment or the piece at the seed position; the hypothesis states the
board/position consistency maintained by Puzzle.place.  The original
claim, which requires the edge partner to be a member, fails because
the seed piece itself need not belong to the returned segment. -/
theorem find_segment_member_edge (bd : Board) (BB : Nat → Nat → Nat → Bool)
    (fuel : Nat) (pos : Nat × Nat)
    (hcons : ∀ i j p, bd.cell i j = Cell.piece p → p.position = (i, j)) :
    ∀ q ∈ find_segment bd BB fuel [] pos,
      ∃ pi pj b ni nj p, bd.cell pi pj = Cell.piece p ∧
        (b, ni, nj) ∈ bd.neighbors pi pj ∧ bd.cell ni nj = Cell.piece q ∧
        BB p.id q.id b = true ∧
        ((pi, pj) = pos ∨ p ∈ find_segment bd BB fuel [] pos) := by
  intro q hq
  rcases find_segment_discov bd BB hcons fuel [] pos q hq with h | h
  · exact absurd h (List.not_mem_nil q)
  · exact h

theorem eq_pC_pA : Piece.eq pC pA = false := by
  show np_allclose pC.picture pA.picture = false
  norm_num [np_allclose, pC, pA, ratAbs]

theorem eq_pC_pB : Piece.eq pC pB = false := by
  show np_allclose pC.picture pB.picture = false
  norm_num [np_allclose, pC, pB, ratAbs]

theorem eq_pB_pA : Piece.eq pB pA = false := by
  show np_allclose pB.picture pA.picture = false
  norm_num [np_allclose, pB, pA, ratAbs]

theorem find_segment_bdEx_eval : find_segment bdEx bbEx 9 [] (0, 1) = [pC, pB] := by
  simp [find_segment, fsLoop, bdEx, Board.neighbors, bbEx, segContains,
    eq_pC_pA, eq_pC_pB, eq_pB_pA,
    show pA.position = (0, 1) from rfl, show pB.position = (0, 0) from rfl,
    show pC.position = (0, 2) from rfl,
    show pA.id = 1 from rfl, show pB.id = 0 from rfl, show pC.id = 2 from rfl]

/-- Counterexample to C3 as stated: on the 1 × 3 board B A C with the
only BB edges pointing from the middle piece A outwards, the traversal
seeded at A returns the two-element segment [C, B], whose members are
not board-adjacent to each other and carry no BB edge (in either
orientation) to any other member. -/
theorem find_segment_member_edge_counterexample :
    1 < (find_segment bdEx bbEx 9 [] (0, 1)).length ∧
    ∃ q ∈ find_segment bdEx bbEx 9 [] (0, 1),
      ∀ m ∈ find_segment bdEx bbEx 9 [] (0, 1),
        ∀ e ∈ bdEx.neighbors q.position.1 q.position.2,
          ¬(bdEx.cell e.2.1 e.2.2 = Cell.piece m ∧
            (bbEx q.id m.id e.1 = true ∨ bbEx m.id q.id e.1 = true)) := by
  rw [find_segment_bdEx_eval]
  decide

/-- Witness for C3 (amended): the member pC of the segment returned on
the counterexample board has a BB-true incoming edge from a
board-adjacent piece that is the piece at the seed position. -/
theorem find_segment_member_edge_witness :
    ∃ pi pj b ni nj p, bdEx.cell pi pj = Cell.piece p ∧
      (b, ni, nj) ∈ bdEx.neighbors pi pj ∧ bdEx.cell ni nj = Cell.piece pC ∧
      bbEx p.id pC.id b = true ∧
      ((pi, pj) = ((0, 1) : Nat × Nat) ∨ p ∈ find_segment bdEx bbEx 9 [] (0, 1)) :=
  find_segment_member_edge bdEx bbEx 9 (0, 1)
    (by
      intro i j p h
      simp only [bdEx] at h
      split_ifs at h with h1 h2 h3 <;>
        first
          | (obtain rfl : pB = p := by injection h
             simp [pB, h1.1, h1.2])
          | (obtain rfl : pA = p := by injection h
             simp [pA, h2.1, h2.2])
          | (obtain rfl : pC = p := by injection h
             simp [pC, h3.1, h3.2]))
    pC (by rw [find_segment_bdEx_eval]; decide)

/-! Claim C5: no duplicate piece identities in a returned segment. -/

/-- C5: provided distinct ids never label pieces with equal pictures on
the board (true of every puzzle, whose piece ids 0..n-1 are unique), a
segment returned by the traversal never contains the same piece id at
two distinct positions of the list.  The membership guard of
find_segment compares pictures (Piece.__eq__), so the hypothesis links
id equality to picture equality for pieces on the board. -/
theorem find_segment_no_duplicate_ids (bd : Board) (BB : Nat → Nat → Nat → Bool)
    (fuel : Nat) (pos : Nat × Nat)
    (hid : ∀ p q : Piece, onBoard bd p → onBoard bd q → p.id = q.id → Piece.eq p q = true) :
    List.Pairwise (fun a c : Piece => a.id ≠ c.id) (find_segment bd BB fuel [] pos) := by
  have hpw := find_segment_pairwise bd BB fuel [] pos List.Pairwise.nil
  have hob : ∀ x ∈ find_segment bd BB fuel [] pos, onBoard bd x := by
    intro x hx
    rcases find_segment_mem_src bd BB fuel [] pos x hx with h | h
    · exact absurd h (List.not_mem_nil x)
    · exact h
  refine List.Pairwise.imp_of_mem ?_ hpw
  intro a c ha hc hr hidEq
  exact absurd (hr ▸ hid a c (hob a ha) (hob c hc) hidEq) Bool.false_ne_true

/-- Witness for C5 at the empty board (the hypothesis holds vacuously:
no piece is on the board). -/
theorem find_segment_no_duplicate_ids_witness :
    List.Pairwise (fun a c : Piece => a.id ≠ c.id) (find_segment bdEmpty bb0 5 [] (0, 0)) :=
  find_segment_no_duplicate_ids bdEmpty bb0 5 (0, 0)
    (fun p q hp _ _ => absurd hp (by rintro ⟨i, j, h⟩; simp [bdEmpty] at h))

/-! Claim C7: traversal from an empty seed cell, segmenter on an empty
board. -/

theorem foldl_max_nil : ∀ rest : List (List Piece), (∀ x ∈ rest, x = []) →
    rest.foldl (fun best x => if best.length < x.length then x else best) [] = [] := by
  intro rest
  induction rest with
  | nil => intro _; rfl
  | cons x xs ih =>
    intro hall
    have hx : x = [] := hall x (List.mem_cons_self x xs)
    subst hx
    simp only [List.foldl_cons]
    rw [if_neg (Nat.lt_irrefl _)]
    exact ih (fun y hy => hall y (List.mem_cons_of_mem _ hy))

theorem pythonMax_all_nil (l : List (List Piece)) (hall : ∀ x ∈ l, x = [])
    (hne : l ≠ []) : pythonMax l = some [] := by
  match l with
  | [] => exact absurd rfl hne
  | s :: rest =>
    have hs : s = [] := hall s (List.mem_cons_self s rest)
    subst hs
    show some (rest.foldl (fun best x => if best.length < x.length then x else best) []) = some []
    rw [foldl_max_nil rest (fun y hy => hall y (List.mem_cons_of_mem _ hy))]

/-- C7: a traversal whose seed cell holds a Slot returns the empty
segment, and on a board whose every cell is a Slot the segmenter (with
the defaulted trial count) returns the empty segment rather than
raising. -/
theorem find_segment_empty_seed (bd : Board) (BB : Nat → Nat → Nat → Bool) (fuel : Nat) :
    (∀ pos : Nat × Nat, ∀ sid, bd.cell pos.1 pos.2 = Cell.slot sid →
      find_segment bd BB fuel [] pos = []) ∧
    (∀ randint : Nat → Nat → Nat, (∀ i j, ∃ sid, bd.cell i j = Cell.slot sid) →
      segmenter bd BB randint 0 fuel = some []) := by
  have hslot : ∀ (fuel : Nat) (seg : List Piece) (pos : Nat × Nat) (sid : Nat),
      bd.cell pos.1 pos.2 = Cell.slot sid → find_segment bd BB fuel seg pos = seg := by
    intro fuel seg pos sid h
    cases fuel with
    | zero => rfl
    | succ fuel => exact find_segment_succ_slot h
  constructor
  · intro pos sid h
    exact hslot fuel [] pos sid h
  · intro randint hempty
    unfold segmenter
    apply pythonMax_all_nil
    · intro x hx
      simp only [segmenter_segments] at hx
      obtain ⟨t, -, rfl⟩ := List.mem_map.1 hx
      obtain ⟨sid, hsid⟩ :=
        hempty (randint (2 * t) bd.n_rows) (randint (2 * t + 1) bd.n_cols)
      exact hslot fuel [] _ sid hsid
    · intro hnil
      have hlen : (segmenter_segments bd BB randint 0 fuel).length =
          segmenter_trials bd.n_rows bd.n_cols 0 := by
        simp [segmenter_segments]
      rw [hnil] at hlen
      have h5 : 5 ≤ segmenter_trials bd.n_rows bd.n_cols 0 := by
        simp only [segmenter_trials, if_pos rfl]
        exact Nat.le_max_left _ _
      simp only [List.length_nil] at hlen
      omega

/-- Witness for C7 at the all-empty 2 × 2 board. -/
theorem find_segment_empty_seed_witness :
    find_segment bdEmpty bb0 3 [] (0, 0) = [] ∧
      segmenter bdEmpty bb0 rand0 0 3 = some [] :=
  ⟨(find_segment_empty_seed bdEmpty bb0 3).1 (0, 0) 0 rfl,
   (find_segment_empty_seed bdEmpty bb0 3).2 rand0 (fun _ _ => ⟨0, rfl⟩)⟩

/-! Helper lemmas for the pruning pass remove_all_but_segment. -/

theorem mem_gridCoords {rows cols : Nat} {q : Nat × Nat} :
    q ∈ gridCoords rows cols ↔ q.1 < rows ∧ q.2 < cols := by
  obtain ⟨i, j⟩ := q
  simp only [gridCoords, List.mem_flatten, List.mem_map, List.mem_range]
  constructor
  · rintro ⟨l, ⟨a, ha, rfl⟩, hm⟩
    obtain ⟨b, hb, he⟩ := List.mem_map.1 hm
    have h1 : a = i := congrArg Prod.fst he
    have h2 : b = j := congrArg Prod.snd he
    subst h1
    subst h2
    exact ⟨ha, List.mem_range.1 hb⟩
  · rintro ⟨hi, hj⟩
    exact ⟨(List.range cols).map (fun j => (i, j)), ⟨i, hi, rfl⟩,
      List.mem_map.2 ⟨j, List.mem_range.2 hj, rfl⟩⟩

theorem nodup_gridCoords (rows cols : Nat) : (gridCoords rows cols).Nodup := by
  rw [gridCoords, List.nodup_flatten]
  constructor
  · intro l hl
    obtain ⟨i, -, rfl⟩ := List.mem_map.1 hl
    refine List.Nodup.map ?_ (List.nodup_range cols)
    intro a b h
    exact congrArg Prod.snd h
  · rw [List.pairwise_map]
    refine List.Pairwise.imp ?_ (List.pairwise_lt_range rows)
    intro a b hab
    rw [List.disjoint_left]
    intro x hx hx'
    obtain ⟨ja, -, rfl⟩ := List.mem_map.1 hx
    obtain ⟨jb, -, he⟩ := List.mem_map.1 hx'
    have hba : b = a := congrArg Prod.fst he
    omega

theorem rabs_foldl (rows : Nat) (segment : List Piece) (cell0 : Nat → Nat → Cell) :
    ∀ ps : List (Nat × Nat), ps.Nodup →
      ∀ st : (Nat → Nat → Cell) × List Piece,
        (∀ q ∈ ps, st.1 q.1 q.2 = cell0 q.1 q.2) →
        (∀ a b, (ps.foldl (rabsStep rows segment) st).1 a b =
          if (a, b) ∈ ps ∧ cellInSegment (cell0 a b) segment = false
          then Cell.slot (a * rows + b) else st.1 a b) ∧
        (ps.foldl (rabsStep rows segment) st).2 =
          st.2 ++ ps.filterMap (fun q =>
            match cell0 q.1 q.2 with
            | Cell.slot _ => none
            | Cell.piece p =>
              if cellInSegment (Cell.piece p) segment then none else some p) := by
  intro ps
  induction ps with
  | nil =>
    intro _ st _
    refine ⟨fun a b => by simp, by simp⟩
  | cons q ps ih =>
    intro hnd st hagree
    have hq_cell : st.1 q.1 q.2 = cell0 q.1 q.2 := hagree q (List.mem_cons_self _ _)
    have hq_notin : q ∉ ps := (List.nodup_cons.1 hnd).1
    have hnd' : ps.Nodup := (List.nodup_cons.1 hnd).2
    simp only [List.foldl_cons]
    by_cases hin : cellInSegment (cell0 q.1 q.2) segment = true
    · have hstep : rabsStep rows segment st q = st := by
        unfold rabsStep
        rw [hq_cell, if_pos hin]
      rw [hstep]
      obtain ⟨ih1, ih2⟩ := ih hnd' st (fun r hr => hagree r (List.mem_cons_of_mem _ hr))
      constructor
      · intro a b
        rw [ih1 a b]
        refine if_congr ?_ rfl rfl
        constructor
        · rintro ⟨hm, hcs⟩
          exact ⟨List.mem_cons_of_mem q hm, hcs⟩
        · rintro ⟨hm, hcs⟩
          rcases List.mem_cons.1 hm with he | hm'
          · rw [← he] at hin
            simp [hcs] at hin
          · exact ⟨hm', hcs⟩
      · rw [ih2, List.filterMap_cons]
        cases hc : cell0 q.1 q.2 with
        | slot sid =>
          rw [hc] at hin
        | piece p =>
          rw [hc] at hin
          simp [hin]
    · have hout : cellInSegment (cell0 q.1 q.2) segment = false := by
        cases h : cellInSegment (cell0 q.1 q.2) segment
        · rfl
        · exact absurd h hin
      have hstep1 : ∀ a b, (rabsStep rows segment st q).1 a b =
          if a = q.1 ∧ b = q.2 then Cell.slot (q.1 * rows + q.2) else st.1 a b := by
        intro a b
        unfold rabsStep
        rw [hq_cell, if_neg (by simp [hout])]
      have hstep2 : (rabsStep rows segment st q).2 =
          st.2 ++ (match cell0 q.1 q.2 with
            | Cell.slot _ => [] | Cell.piece p => [p]) := by
        unfold rabsStep
        rw [hq_cell, if_neg (by simp [hout])]
        cases hc : cell0 q.1 q.2 <;> simp
      have hagree' : ∀ r ∈ ps, (rabsStep rows segment st q).1 r.1 r.2 = cell0 r.1 r.2 := by
        intro r hr
        rw [hstep1]
        rw [if_neg ?_]
        · exact hagree r (List.mem_cons_of_mem _ hr)
        · rintro ⟨hr1, hr2⟩
          obtain ⟨r1, r2⟩ := r
          obtain ⟨q1, q2⟩ := q
          cases hr1
          cases hr2
          exact hq_notin hr
      obtain ⟨ih1, ih2⟩ := ih hnd' _ hagree'
      constructor
      · intro a b
        rw [ih1 a b]
        by_cases habq : a = q.1 ∧ b = q.2
        · obtain ⟨h1, h2⟩ := habq
          subst h1
          subst h2
          have hnot : ¬((q.1, q.2) ∈ ps ∧
              cellInSegment (cell0 q.1 q.2) segment = false) :=
            fun hh => hq_notin hh.1
          rw [if_neg hnot, hstep1, if_pos ⟨rfl, rfl⟩,
            if_pos ⟨List.mem_cons_self q ps, hout⟩]
        · rw [hstep1, if_neg habq]
          have hmem_iff : ((a, b) ∈ q :: ps) ↔ ((a, b) ∈ ps) := by
            rw [List.mem_cons]
            refine or_iff_right ?_
            intro hh
            exact habq ⟨by rw [← hh], by rw [← hh]⟩
          simp only [hmem_iff]
      · rw [ih2, hstep2, List.filterMap_cons]
        cases hc : cell0 q.1 q.2 with
        | slot sid => simp
        | piece p =>
          rw [hc] at hout
          simp [hout]

theorem remove_all_but_segment_spec (rows cols : Nat) (cell0 : Nat → Nat → Cell)
    (segment : List Piece) :
    (∀ a b, (remove_all_but_segment rows cols cell0 segment).1 a b =
      if a < rows ∧ b < cols ∧ cellInSegment (cell0 a b) segment = false
      then Cell.slot (a * rows + b) else cell0 a b) ∧
    ∀ p : Piece, p ∈ (remove_all_but_segment rows cols cell0 segment).2 ↔
      ∃ a b, a < rows ∧ b < cols ∧ cell0 a b = Cell.piece p ∧
        segContains segment p = false := by
  obtain ⟨h1, h2⟩ := rabs_foldl rows segment cell0 (gridCoords rows cols)
    (nodup_gridCoords rows cols) (cell0, []) (fun q _ => rfl)
  constructor
  · intro a b
    unfold remove_all_but_segment
    rw [h1 a b]
    simp only [mem_gridCoords]
    exact if_congr (by tauto) rfl rfl
  · intro p
    unfold remove_all_but_segment
    rw [h2]
    simp only [List.nil_append, List.mem_filterMap]
    constructor
    · rintro ⟨q, hq, hf⟩
      split at hf
      · exact absurd hf (by simp)
      · rename_i pp hc
        split at hf
        · exact absurd hf (by simp)
        · rename_i hcs
          obtain rfl : pp = p := Option.some_inj.1 hf
          refine ⟨q.1, q.2, (mem_gridCoords.1 hq).1, (mem_gridCoords.1 hq).2, hc, ?_⟩
          cases h : segContains segment pp
          · rfl
          · exact absurd (by simpa [cellInSegment] using h) hcs
    · rintro ⟨a, b, ha, hb, hcell, hseg⟩
      refine ⟨(a, b), mem_gridCoords.2 ⟨ha, hb⟩, ?_⟩
      show (match cell0 a b with
        | Cell.slot _ => none
        | Cell.piece p' =>
          if cellInSegment (Cell.piece p') segment then none else some p') = some p
      rw [hcell]
      simp [cellInSegment, hseg]

/-! Reflexivity of the approximate picture equality. -/

theorem ratAbs_nonneg (x : ℚ) : 0 ≤ ratAbs x := by
  unfold ratAbs
  split_ifs with h
  · linarith
  · linarith

theorem zip_same_fst_eq_snd {a : List ℚ} : ∀ xy ∈ a.zip a, xy.1 = xy.2 := by
  induction a with
  | nil => intro xy hxy; cases hxy
  | cons x xs ih =>
    intro xy hxy
    rcases List.mem_cons.1 hxy with rfl | h
    · rfl
    · exact ih xy h

theorem np_allclose_refl (a : List ℚ) : np_allclose a a = true := by
  unfold np_allclose
  rw [Bool.and_eq_true]
  refine ⟨by simp, ?_⟩
  rw [List.all_eq_true]
  intro xy hxy
  rw [decide_eq_true_eq]
  have hz : xy.1 = xy.2 := zip_same_fst_eq_snd xy hxy
  rw [hz, sub_self]
  have h0 : ratAbs 0 = 0 := by simp [ratAbs]
  rw [h0]
  have := ratAbs_nonneg xy.2
  positivity

theorem piece_eq_refl (p : Piece) : Piece.eq p p = true := np_allclose_refl p.picture

/-! Claim C6: effect of remove_all_but_segment on the board cells. -/

/-- C6: after remove_all_but_segment runs, every in-range cell holding
a piece that fails the membership test against the winning segment (the
test of the code: Piece.__eq__, i.e. picture allclose) is an empty Slot
and that piece had its placed flag cleared (it appears in the cleared
collection of the model); every in-range cell holding a piece that
passes the test is unchanged and its flag is untouched. -/
theorem remove_all_but_segment_correct (rows cols : Nat) (cell0 : Nat → Nat → Cell)
    (segment : List Piece) (i j : Nat) (p : Piece)
    (hi : i < rows) (hj : j < cols) (hp : cell0 i j = Cell.piece p) :
    (segContains segment p = false →
      (remove_all_but_segment rows cols cell0 segment).1 i j = Cell.slot (i * rows + j) ∧
      p ∈ (remove_all_but_segment rows cols cell0 segment).2) ∧
    (segContains segment p = true →
      (remove_all_but_segment rows cols cell0 segment).1 i j = cell0 i j ∧
      p ∉ (remove_all_but_segment rows cols cell0 segment).2) := by
  obtain ⟨h1, h2⟩ := remove_all_but_segment_spec rows cols cell0 segment
  constructor
  · intro hout
    refine ⟨?_, (h2 p).2 ⟨i, j, hi, hj, hp, hout⟩⟩
    rw [h1 i j, if_pos ⟨hi, hj, by simp [cellInSegment, hp, hout]⟩]
  · intro hin
    constructor
    · rw [h1 i j, if_neg ?_]
      rintro ⟨-, -, hcs⟩
      rw [hp] at hcs
      simp [cellInSegment, hin] at hcs
    · intro hmem
      obtain ⟨a, b, -, -, -, hseg⟩ := (h2 p).1 hmem
      exact absurd hseg (by simp [hin])

/-- Witness for C6 on a 1 × 1 board holding the single piece pB: with
the empty winning segment the cell is reset and pB is cleared; with the
segment [pB] the cell is untouched and pB keeps its flag. -/
theorem remove_all_but_segment_correct_witness :
    ((remove_all_but_segment 1 1 cellOneB []).1 0 0 = Cell.slot 0 ∧
      pB ∈ (remove_all_but_segment 1 1 cellOneB []).2) ∧
    ((remove_all_but_segment 1 1 cellOneB [pB]).1 0 0 = cellOneB 0 0 ∧
      pB ∉ (remove_all_but_segment 1 1 cellOneB [pB]).2) :=
  ⟨(remove_all_but_segment_correct 1 1 cellOneB [] 0 0 pB (by decide) (by decide) rfl).1 rfl,
   (remove_all_but_segment_correct 1 1 cellOneB [pB] 0 0 pB (by decide) (by decide) rfl).2
     (by simp [segContains, piece_eq_refl])⟩

/-! Claim C10: the two positional-id schemes for slots. -/

/-- C10 (amended): cells reset by remove_all_but_segment receive
Slot(i * n_rows + j) while Board construction assigns Slot(i * n_cols + j);
the two schemes agree on every in-range cell if and only if
n_rows = n_cols, or n_rows <= 1, or n_cols = 0 (the claim said only
n_rows = n_cols; one-row boards also make them agree). -/
theorem slot_id_schemes (rows cols : Nat) (cell0 : Nat → Nat → Cell)
    (segment : List Piece) (i j : Nat) (hi : i < rows) (hj : j < cols) :
    (cellInSegment (cell0 i j) segment = false →
      (remove_all_but_segment rows cols cell0 segment).1 i j = Cell.slot (i * rows + j)) ∧
    (Board.init rows cols).cell i j = Cell.slot (i * cols + j) ∧
    ((∀ a < rows, ∀ b < cols, a * rows + b = a * cols + b) ↔
      (rows = cols ∨ rows ≤ 1 ∨ cols = 0)) := by
  refine ⟨?_, rfl, ?_, ?_⟩
  · intro h
    rw [(remove_all_but_segment_spec rows cols cell0 segment).1 i j, if_pos ⟨hi, hj, h⟩]
  · intro hall
    by_cases h1 : rows ≤ 1
    · exact Or.inr (Or.inl h1)
    by_cases h2 : cols = 0
    · exact Or.inr (Or.inr h2)
    · left
      have := hall 1 (by omega) 0 (by omega)
      omega
  · rintro (h | h | h) <;> intro a ha b hb
    · rw [h]
    · have ha0 : a = 0 := by omega
      subst ha0
      simp
    · exact absurd hb (by omega)

/-- Counterexample to C10 as stated: on a 1 × 2 board the two id
schemes coincide on every cell (pruning the fully-empty initial board
with the empty segment reproduces exactly the constructed slots), yet
the board is not square. -/
theorem slot_id_schemes_counterexample :
    (∀ a, a < 1 → ∀ b, b < 2 →
      (remove_all_but_segment 1 2 (Board.init 1 2).cell []).1 a b =
        (Board.init 1 2).cell a b) ∧
    (1 : Nat) ≠ 2 := by
  decide

/-- Witness for C10 (amended) on a 2 × 3 board: an in-range non-member
cell is reset to the row-based id 1 * 2 + 0 while construction used
1 * 3 + 0, and the scheme-coincidence criterion evaluates. -/
theorem slot_id_schemes_witness :
    (remove_all_but_segment 2 3 (Board.init 2 3).cell []).1 1 0 = Cell.slot (1 * 2 + 0) ∧
    (Board.init 2 3).cell 1 0 = Cell.slot (1 * 3 + 0) ∧
    ((∀ a < 2, ∀ b < 3, a * 2 + b = a * 3 + b) ↔
      ((2 : Nat) = 3 ∨ (2 : Nat) ≤ 1 ∨ (3 : Nat) = 0)) :=
  ⟨(slot_id_schemes 2 3 (Board.init 2 3).cell [] 1 0 (by decide) (by decide)).1 rfl,
   (slot_id_schemes 2 3 (Board.init 2 3).cell [] 1 0 (by decide) (by decide)).2⟩

/-! Claim C8: determinism of the pipeline under a fixed random source. -/

/-- C8: two runs of shuffle, best-buddy derivation and segment search on
identical piece data, compatibility tensor, board state and seeded
random source produce identical shuffled bags, BB tensors and segments
(the global numpy generator is modelled as the injectable call-indexed
source randint, fixed by the seed). -/
theorem pipeline_deterministic (rows1 cols1 : Nat) (bag1 : List Piece) (n1 : Nat)
    (CM1 : Nat → Nat → Nat → ℚ) (randint1 : Nat → Nat → Nat) (bd1 : Board)
    (n_iter1 fuel1 : Nat) (rows2 cols2 : Nat) (bag2 : List Piece) (n2 : Nat)
    (CM2 : Nat → Nat → Nat → ℚ) (randint2 : Nat → Nat → Nat) (bd2 : Board)
    (n_iter2 fuel2 : Nat)
    (hrows : rows1 = rows2) (hcols : cols1 = cols2) (hbag : bag1 = bag2)
    (hn : n1 = n2) (hCM : CM1 = CM2) (hrand : randint1 = randint2)
    (hbd : bd1 = bd2) (hni : n_iter1 = n_iter2) (hfuel : fuel1 = fuel2) :
    pipeline rows1 cols1 bag1 n1 CM1 randint1 bd1 n_iter1 fuel1 =
      pipeline rows2 cols2 bag2 n2 CM2 randint2 bd2 n_iter2 fuel2 := by
  subst hrows
  subst hcols
  subst hbag
  subst hn
  subst hCM
  subst hrand
  subst hbd
  subst hni
  subst hfuel
  rfl

/-- Witness for C8 at a concrete run. -/
theorem pipeline_deterministic_witness :
    pipeline 2 2 [pB] 1 cm0 rand0 bdEmpty 0 3 =
      pipeline 2 2 [pB] 1 cm0 rand0 bdEmpty 0 3 :=
  pipeline_deterministic 2 2 [pB] 1 cm0 rand0 bdEmpty 0 3 2 2 [pB] 1 cm0 rand0 bdEmpty 0 3
    rfl rfl rfl rfl rfl rfl rfl rfl rfl

/-! Claim C9: Piece equality compares pictures only. -/

/-- C9: the Piece equality test is exactly np.allclose of the two
pictures, it depends on nothing but the pictures (in particular not the
ids), the membership tests of the traversal (segContains) and of the
pruning pass (cellInSegment) are invariant under replacing a piece by
one with the same picture, and two pieces with identical pixel content
are always equal. -/
theorem piece_eq_picture_only :
    (∀ p q : Piece, Piece.eq p q = np_allclose p.picture q.picture) ∧
    (∀ p q p2 q2 : Piece, p.picture = p2.picture → q.picture = q2.picture →
      Piece.eq p q = Piece.eq p2 q2) ∧
    (∀ (seg : List Piece) (p q : Piece), p.picture = q.picture →
      segContains seg p = segContains seg q) ∧
    (∀ (seg : List Piece) (p q : Piece), p.picture = q.picture →
      cellInSegment (Cell.piece p) seg = cellInSegment (Cell.piece q) seg) ∧
    (∀ p q : Piece, p.picture = q.picture → Piece.eq p q = true) := by
  have hpic : ∀ (seg : List Piece) (p q : Piece), p.picture = q.picture →
      segContains seg p = segContains seg q := by
    intro seg p q h
    simp only [segContains, Piece.eq, h]
  refine ⟨fun p q => rfl, ?_, hpic, ?_, ?_⟩
  · intro p q p2 q2 hp hq
    simp only [Piece.eq, hp, hq]
  · intro seg p q h
    simp only [cellInSegment, hpic seg p q h]
  · intro p q h
    show np_allclose p.picture q.picture = true
    rw [h]
    exact np_allclose_refl q.picture

/-- Witness for C9: the pieces pB and pD differ in id, flag and
position but share the picture, so the equality test and the
segment-membership test identify them. -/
theorem piece_eq_picture_only_witness :
    Piece.eq pB pD = true ∧ segContains [pC] pB = segContains [pC] pD :=
  ⟨piece_eq_picture_only.2.2.2.2 pB pD rfl,
   piece_eq_picture_only.2.2.1 [pC] pB pD rfl⟩
